import Mathlib

/-!
Verification of the OGAsync future/promise core (OGFuture.h,
OGFutureUtilities.cpp) against its natural-language specification.

The shallow embedding models one `TOGFutureState<T>` as a record `TCell V`
holding the resolution status, the stored value, the failure reason and the
registered callback lists.  A state together with its (at most one, lazily
created) continuation child, that childs child, and so on, is a `List (TCell V)`
whose head is the state itself and whose tail is the continuation chain.
Callbacks are identified by numeric ids; executing a callback is recorded as a
`FireEvent` in an output trace, so firing order and firing counts are
observable.  All operations are translated from the source:
`Fulfill`, `Throw`, `AddThen`, `AddVoidThen`, `AddCatch`,
`LazyGetContinuation`, `TryGetValue`, the `TOGPromise` destructor, the shared
error state, and the `FutureAll` / `FutureAny` combinators.
-/

namespace OGAsync

/-- Resolution status of a future state (enum `FOGFutureState::EState`). -/
inductive EState
  | Pending
  | Fulfilled
  | Rejected
deriving DecidableEq

/-- Observable execution of one registered callback.  A value-taking `then`
delegate receives the stored value, a value-less `then` delegate receives
nothing, a `catch` delegate receives the failure reason. -/
inductive FireEvent (V : Type)
  | thenFired (id : Nat) (value : V)
  | voidThenFired (id : Nat)
  | catchFired (id : Nat) (reason : String)
deriving DecidableEq

/-- One `TOGFutureState<T>` cell: status, stored value (`ResultValue`),
failure reason, and the three callback arrays.  The lazily created
continuation child (`ContinuationFutureState`) is represented as the tail of
the enclosing list, so a whole chain is `List (TCell V)`. -/
structure TCell (V : Type) where
  State : EState := EState.Pending
  ResultValue : Option V := none
  FailureReason : Option String := none
  ThenCallbacks : List Nat := []
  VoidThenCallbacks : List Nat := []
  CatchCallbacks : List Nat := []
deriving DecidableEq

/-- A freshly constructed future state: Pending, no value, no reason, no
callbacks (the default member initializers of `FOGFutureState`). -/
def freshTCell {V : Type} : TCell V := {}

variable {V : Type} [DecidableEq V]

/-- `TOGFutureState<T>::Fulfill`.  Guard: `ensureAlways(State == Pending &&
!ResultValue.IsSet())`, otherwise a no-op.  On success it stores the value,
sets the status, and runs `ExecuteThenCallbacks`: all typed then delegates
with the value, then all void then delegates, then `Fulfill` on the
continuation child with the same value, then `ClearCallbacks`.  The returned
list is the fired-callback trace in execution order. -/
def Fulfill (v : V) : List (TCell V) → List (TCell V) × List (FireEvent V)
  | [] => ([], [])
  | c :: rest =>
    if c.State = EState.Pending ∧ c.ResultValue = none then
      let c1 : TCell V := { c with ResultValue := some v, State := EState.Fulfilled }
      if c1.ResultValue.isSome ∧ c1.State = EState.Fulfilled then
        let evs := c1.ThenCallbacks.map (fun i => FireEvent.thenFired i v)
          ++ c1.VoidThenCallbacks.map (fun i => FireEvent.voidThenFired i)
        let r2 := Fulfill v rest
        ({ c1 with ThenCallbacks := [], VoidThenCallbacks := [], CatchCallbacks := [] } :: r2.1,
          evs ++ r2.2)
      else (c1 :: rest, [])
    else (c :: rest, [])

/-- `FOGFutureState::Throw`.  The guard is translated exactly as written in
the source: `if (!ensure(State == Pending) && !FailureReason.IsSet()) return;`
which returns (no-op) only when the state is not Pending AND no failure
reason is stored yet.  Otherwise it stores the reason, sets the status and
runs `ExecuteCatchCallbacks`: every catch delegate with the reason, then
`Throw` on the continuation child, then `ClearCallbacks`. -/
def Throw (Reason : String) : List (TCell V) → List (TCell V) × List (FireEvent V)
  | [] => ([], [])
  | c :: rest =>
    if ¬ (c.State = EState.Pending) ∧ c.FailureReason = none then
      (c :: rest, [])
    else
      let c1 : TCell V := { c with FailureReason := some Reason, State := EState.Rejected }
      if c1.State = EState.Rejected ∧ c1.FailureReason.isSome then
        let evs := c1.CatchCallbacks.map (fun i => FireEvent.catchFired i Reason)
        let r2 := Throw Reason rest
        ({ c1 with ThenCallbacks := [], VoidThenCallbacks := [], CatchCallbacks := [] } :: r2.1,
          evs ++ r2.2)
      else (c1 :: rest, [])

/-- `FOGFutureState::LazyGetContinuation`: creates the continuation child on
first use.  In the chain representation: an empty tail becomes a fresh
pending cell, a nonempty tail is returned unchanged. -/
def LazyGetContinuation : List (TCell V) → List (TCell V)
  | [] => [freshTCell]
  | rest => rest

/-- `TOGFutureState<T>::AddThen` (registration of a value-taking then
delegate).  Pending: append to `ThenCallbacks`.  Fulfilled: execute
immediately with the stored value.  Rejected: discard.  Always returns the
(lazily created) continuation. -/
def AddThen (id : Nat) : List (TCell V) → List (TCell V) × List (FireEvent V)
  | [] => ([], [])
  | c :: rest =>
    match c.State, c.ResultValue with
    | EState.Pending, _ =>
        ({ c with ThenCallbacks := c.ThenCallbacks ++ [id] } :: LazyGetContinuation rest, [])
    | EState.Fulfilled, some v => (c :: LazyGetContinuation rest, [FireEvent.thenFired id v])
    | EState.Fulfilled, none => (c :: LazyGetContinuation rest, [])
    | EState.Rejected, _ => (c :: LazyGetContinuation rest, [])

/-- `FOGFutureState::AddVoidThen` (registration of a value-less then
delegate).  Pending: append to `VoidThenCallbacks`.  Fulfilled: execute
immediately.  Rejected (the default case of the switch): discard. -/
def AddVoidThen (id : Nat) : List (TCell V) → List (TCell V) × List (FireEvent V)
  | [] => ([], [])
  | c :: rest =>
    match c.State with
    | EState.Pending =>
        ({ c with VoidThenCallbacks := c.VoidThenCallbacks ++ [id] } :: LazyGetContinuation rest, [])
    | EState.Fulfilled => (c :: LazyGetContinuation rest, [FireEvent.voidThenFired id])
    | EState.Rejected => (c :: LazyGetContinuation rest, [])

/-- `FOGFutureState::AddCatch`.  Pending: append to `CatchCallbacks`.
Rejected: execute immediately with the stored reason.  Fulfilled (default
case): discard. -/
def AddCatch (id : Nat) : List (TCell V) → List (TCell V) × List (FireEvent V)
  | [] => ([], [])
  | c :: rest =>
    match c.State, c.FailureReason with
    | EState.Pending, _ =>
        ({ c with CatchCallbacks := c.CatchCallbacks ++ [id] } :: LazyGetContinuation rest, [])
    | EState.Rejected, some r => (c :: LazyGetContinuation rest, [FireEvent.catchFired id r])
    | EState.Rejected, none => (c :: LazyGetContinuation rest, [])
    | EState.Fulfilled, _ => (c :: LazyGetContinuation rest, [])

/-- The abandonment reason used by the `TOGPromise<T>` destructor. -/
def destroyedMsg : String := "Promise was destroyed before it was fulfilled or failed"

/-- `TOGPromise<T>::~TOGPromise`: if the shared state is valid and still
Pending, call `Throw` with the abandonment reason; otherwise do nothing. -/
def PromiseDestroy : List (TCell V) → List (TCell V) × List (FireEvent V)
  | [] => ([], [])
  | c :: rest =>
    if c.State = EState.Pending then Throw destroyedMsg (c :: rest) else (c :: rest, [])

/-- `TOGFutureState<T>::GetValueSafe` returns `ResultValue.GetValue()`; the
model exposes the underlying optional (the source presupposes it is set). -/
def GetValueSafe (c : TCell V) : Option V := c.ResultValue

/-- `TOGFutureState<T>::TryGetValue`: returns false unless Fulfilled,
otherwise copies the stored value into the out parameter and returns true.
The method is const; the third component is the (unchanged) state.  The
`none` branch mirrors the precondition of `TOptional::GetValue` and is
unreachable for states produced by the operations of this file. -/
def TryGetValue (c : TCell V) (OutValue : V) : Bool × V × TCell V :=
  if c.State = EState.Fulfilled then
    match c.ResultValue with
    | some v => (true, v, c)
    | none => (true, OutValue, c)
  else (false, OutValue, c)

/-- The fixed diagnostic reason of the shared error state
(`TOGFutureState<T>::GetErrorState`). -/
def errorMsg : String := "Promise/Future access error, data is either invalid or the wrong type."

/-- The shared error state: constructed once and immediately `Throw`-n with
the fixed diagnostic reason. -/
def errorChain : List (TCell Nat) := (Throw errorMsg [freshTCell]).1

/-- A type-erased `FOGFuture` payload: the dynamic type of the underlying
`TOGFutureState<T>` (as a numeric tag standing for `T`) together with the
state itself; values of every instantiation are coded as `Nat` so all
instantiations live in one Lean type. -/
structure ErasedState where
  tag : Nat
  chain : List (TCell Nat)
deriving DecidableEq

/-- `TOGFutureState<T>::GetErrorState` for the template instantiation
`requested`: the shared, permanently rejected error state. -/
def GetErrorState (requested : Nat) : ErasedState :=
  { tag := requested, chain := errorChain }

/-- The `static_cast<TOGFutureState<T>*>(SharedState.Get())` performed by
`FOGFuture::GetTypedState`: a static downcast of a non-null base pointer is
never null, whatever the dynamic type of the object, so the cast is the
identity on the erased state. -/
def staticCastTyped (e : ErasedState) : Option ErasedState := some e

/-- `FOGFuture::GetTypedState<T>`: an invalid handle yields the error state;
otherwise the raw state pointer is static_cast to the requested type and the
resulting pointer is checked for null by `ensureAlwaysMsgf` (the null branch
would yield the error state). -/
def GetTypedState (requested : Nat) : Option ErasedState → ErasedState
  | none => GetErrorState requested
  | some e =>
    match staticCastTyped e with
    | some TypedState => TypedState
    | none => GetErrorState requested

/-! ## The combinators `UOGFutureUtilities::FutureAll` and `FutureAny`

The aggregate state is a `TOGFutureState<void>`: the void specialization has
no stored value and no typed then delegates. -/

/-- One `TOGFutureState<void>` cell (void specialization). -/
structure VCell where
  State : EState := EState.Pending
  FailureReason : Option String := none
  VoidThenCallbacks : List Nat := []
  CatchCallbacks : List Nat := []
deriving DecidableEq

/-- Callback execution trace entries of the void specialization. -/
inductive VEvent
  | voidThenFired (id : Nat)
  | catchFired (id : Nat) (reason : String)
deriving DecidableEq

/-- `TOGFutureState<void>::Fulfill`: guard `ensure(State == Pending)`, then
set Fulfilled and run the void then delegates, the continuation child, and
`ClearCallbacks`. -/
def VFulfill : List VCell → List VCell × List VEvent
  | [] => ([], [])
  | c :: rest =>
    if c.State = EState.Pending then
      let c1 : VCell := { c with State := EState.Fulfilled }
      if c1.State = EState.Fulfilled then
        let evs := c1.VoidThenCallbacks.map (fun i => VEvent.voidThenFired i)
        let r2 := VFulfill rest
        ({ c1 with VoidThenCallbacks := [], CatchCallbacks := [] } :: r2.1, evs ++ r2.2)
      else (c1 :: rest, [])
    else (c :: rest, [])

/-- `FOGFutureState::Throw` acting on a void state (the shared base
implementation, same guard as `Throw` above). -/
def VThrow (Reason : String) : List VCell → List VCell × List VEvent
  | [] => ([], [])
  | c :: rest =>
    if ¬ (c.State = EState.Pending) ∧ c.FailureReason = none then
      (c :: rest, [])
    else
      let c1 : VCell := { c with FailureReason := some Reason, State := EState.Rejected }
      if c1.State = EState.Rejected ∧ c1.FailureReason.isSome then
        let evs := c1.CatchCallbacks.map (fun i => VEvent.catchFired i Reason)
        let r2 := VThrow Reason rest
        ({ c1 with VoidThenCallbacks := [], CatchCallbacks := [] } :: r2.1, evs ++ r2.2)
      else (c1 :: rest, [])

/-- Status of a (possibly empty) void chain, as seen through a handle. -/
def aggStatus : List VCell → EState
  | [] => EState.Pending
  | c :: _ => c.State

/-- Failure reason of a void chain, as seen through a handle. -/
def aggReason : List VCell → Option String
  | [] => none
  | c :: _ => c.FailureReason

/-- An external resolution event on the combinator inputs: input `i` is
fulfilled, or rejected with a reason. -/
inductive CEvent
  | fulfillI (i : Nat)
  | rejectI (i : Nat) (reason : String)
deriving DecidableEq

/-- The world of one `FutureAll` call: the statuses of the N input states,
the shared pair (`Key` = number of promises left to complete, `HasErrored`),
and the aggregate `TOGFutureState<void>`.  Each input carries the void then
lambda and the catch lambda the combinator registered on it. -/
structure AllWorld where
  inputs : List EState
  Key : Int
  HasErrored : Bool
  agg : List VCell
deriving DecidableEq

/-- One input resolution during `FutureAll`.  Resolving a pending input runs
the lambda registered on it (then-lambda on fulfillment, catch-lambda on
rejection); resolving an already resolved input is a no-op, because the
input state fires its callbacks only on its single transition out of
Pending.  The then-lambda decrements `Key` and fulfills the aggregate at
zero; the catch-lambda rejects the aggregate with the first reason seen. -/
def stepAll (w : AllWorld) (e : CEvent) : AllWorld :=
  match e with
  | CEvent.fulfillI i =>
    match w.inputs[i]? with
    | some EState.Pending =>
      let inputs2 := w.inputs.set i EState.Fulfilled
      let key2 := w.Key - 1
      if key2 = 0 then
        { inputs := inputs2, Key := key2, HasErrored := w.HasErrored, agg := (VFulfill w.agg).1 }
      else
        { inputs := inputs2, Key := key2, HasErrored := w.HasErrored, agg := w.agg }
    | _ => w
  | CEvent.rejectI i r =>
    match w.inputs[i]? with
    | some EState.Pending =>
      let inputs2 := w.inputs.set i EState.Rejected
      if w.HasErrored = false then
        { inputs := inputs2, Key := w.Key, HasErrored := true, agg := (VThrow r w.agg).1 }
      else
        { inputs := inputs2, Key := w.Key, HasErrored := w.HasErrored, agg := w.agg }
    | _ => w

/-- `UOGFutureUtilities::FutureAll` over N (initially pending) inputs: an
empty input array fulfills the aggregate immediately; otherwise `Key` starts
at N and `HasErrored` at false. -/
def initAll (N : Nat) : AllWorld :=
  if N = 0 then
    { inputs := [], Key := 0, HasErrored := false, agg := (VFulfill [{}]).1 }
  else
    { inputs := List.replicate N EState.Pending, Key := (N : Int), HasErrored := false,
      agg := [{}] }

/-- The world after `FutureAll` was set up over N inputs and the event
sequence `es` happened. -/
def runAll (N : Nat) (es : List CEvent) : AllWorld := es.foldl stepAll (initAll N)

/-- The synthetic aggregate rejection reason of `FutureAny`. -/
def allRejectedMsg : String := "All futures were thrown, can no longer complete"

/-- The world of one `FutureAny` call: statuses of the N inputs, the shared
pair (`Key` = number of promises left to fail, `HasCompleted`), and the
aggregate state. -/
structure AnyWorld where
  inputs : List EState
  Key : Int
  HasCompleted : Bool
  agg : List VCell
deriving DecidableEq

/-- One input resolution during `FutureAny`: the then-lambda fulfills the
aggregate on the first fulfillment; the catch-lambda decrements `Key` and
rejects the aggregate with the synthetic reason when it reaches zero. -/
def stepAny (w : AnyWorld) (e : CEvent) : AnyWorld :=
  match e with
  | CEvent.fulfillI i =>
    match w.inputs[i]? with
    | some EState.Pending =>
      let inputs2 := w.inputs.set i EState.Fulfilled
      if w.HasCompleted = false then
        { inputs := inputs2, Key := w.Key, HasCompleted := true, agg := (VFulfill w.agg).1 }
      else
        { inputs := inputs2, Key := w.Key, HasCompleted := w.HasCompleted, agg := w.agg }
    | _ => w
  | CEvent.rejectI i _ =>
    match w.inputs[i]? with
    | some EState.Pending =>
      let inputs2 := w.inputs.set i EState.Rejected
      let key2 := w.Key - 1
      if key2 = 0 then
        { inputs := inputs2, Key := key2, HasCompleted := w.HasCompleted,
          agg := (VThrow allRejectedMsg w.agg).1 }
      else
        { inputs := inputs2, Key := key2, HasCompleted := w.HasCompleted, agg := w.agg }
    | _ => w

/-- `UOGFutureUtilities::FutureAny` over N (initially pending) inputs. -/
def initAny (N : Nat) : AnyWorld :=
  if N = 0 then
    { inputs := [], Key := 0, HasCompleted := false, agg := (VFulfill [{}]).1 }
  else
    { inputs := List.replicate N EState.Pending, Key := (N : Int), HasCompleted := false,
      agg := [{}] }

/-- The world after `FutureAny` was set up over N inputs and the event
sequence `es` happened. -/
def runAny (N : Nat) (es : List CEvent) : AnyWorld := es.foldl stepAny (initAny N)

/-- The reason of the first rejection event that lands on a still pending
input (specification-side scan used to state what reason the aggregate must
carry). -/
def firstEffReject : List EState → List CEvent → Option String
  | _, [] => none
  | sts, CEvent.fulfillI i :: es =>
    match sts[i]? with
    | some EState.Pending => firstEffReject (sts.set i EState.Fulfilled) es
    | _ => firstEffReject sts es
  | sts, CEvent.rejectI i r :: es =>
    match sts[i]? with
    | some EState.Pending => some r
    | _ => firstEffReject sts es

/-- Number of fulfilled inputs. -/
def cF (l : List EState) : Nat := l.countP (fun s => decide (s = EState.Fulfilled))

/-- Number of rejected inputs. -/
def cR (l : List EState) : Nat := l.countP (fun s => decide (s = EState.Rejected))

/-- Intended status of the `FutureAll` aggregate as a function of the input
statuses. -/
def allStatus (l : List EState) : EState :=
  if 0 < cR l then EState.Rejected
  else if cF l = l.length then EState.Fulfilled
  else EState.Pending

/-- Intended status of the `FutureAny` aggregate as a function of the input
statuses. -/
def anyStatus (l : List EState) : EState :=
  if 0 < cF l ∨ l = [] then EState.Fulfilled
  else if cR l = l.length then EState.Rejected
  else EState.Pending

/-! ## Derived descriptions used in theorem statements -/

/-- What a pending cell becomes when the chain it lives in is fulfilled with
`v`: Fulfilled, value stored, callback lists cleared. -/
def fulfilledCell (v : V) (c : TCell V) : TCell V :=
  { c with State := EState.Fulfilled, ResultValue := some v,
           ThenCallbacks := [], VoidThenCallbacks := [], CatchCallbacks := [] }

/-- What a pending cell becomes when the chain it lives in is rejected with
`Reason`: Rejected, reason stored, callback lists cleared. -/
def rejectedCell (Reason : String) (c : TCell V) : TCell V :=
  { c with State := EState.Rejected, FailureReason := some Reason,
           ThenCallbacks := [], VoidThenCallbacks := [], CatchCallbacks := [] }

/-- The events one cell contributes on fulfillment: its value-taking then
delegates in registration order, then its value-less then delegates in
registration order. -/
def fulfillEventsOf (v : V) (c : TCell V) : List (FireEvent V) :=
  c.ThenCallbacks.map (fun i => FireEvent.thenFired i v)
    ++ c.VoidThenCallbacks.map (fun i => FireEvent.voidThenFired i)

/-- The events one cell contributes on rejection: its catch delegates in
registration order. -/
def catchEventsOf (Reason : String) (c : TCell V) : List (FireEvent V) :=
  c.CatchCallbacks.map (fun i => FireEvent.catchFired i Reason)

/-- A registration request on one state: a value-taking then delegate or a
value-less then delegate, identified by a callback id. -/
inductive Reg
  | typed (id : Nat)
  | voidReg (id : Nat)
deriving DecidableEq

/-- Apply one registration to a chain (the mutation performed by `AddThen`
respectively `AddVoidThen`). -/
def applyReg (ch : List (TCell V)) (r : Reg) : List (TCell V) :=
  match r with
  | Reg.typed i => (AddThen i ch).1
  | Reg.voidReg i => (AddVoidThen i ch).1

/-- The ids of the value-taking registrations, in order. -/
def typedIds (regs : List Reg) : List Nat :=
  regs.filterMap (fun r => match r with | Reg.typed i => some i | Reg.voidReg _ => none)

/-- The ids of the value-less registrations, in order. -/
def voidIds (regs : List Reg) : List Nat :=
  regs.filterMap (fun r => match r with | Reg.voidReg i => some i | Reg.typed _ => none)

/-- A continuation tail as produced by registrations on a fresh state:
either still absent or a single fresh pending cell. -/
def TailNice (t : List (TCell V)) : Prop := t = [] ∨ t = [(freshTCell : TCell V)]

/-- Consistency invariant tying a `FutureAll` world to its input statuses:
list length, the countdown `Key`, the `HasErrored` flag and the aggregate
status are all determined by the inputs. -/
def InvAll (N : Nat) (w : AllWorld) : Prop :=
  w.inputs.length = N ∧
  w.Key = (w.inputs.length : Int) - (cF w.inputs : Int) ∧
  (w.HasErrored = true ↔ 0 < cR w.inputs) ∧
  ∃ rs, w.agg = [{ State := allStatus w.inputs, FailureReason := rs,
                   VoidThenCallbacks := [], CatchCallbacks := [] }]

/-- Consistency invariant tying a `FutureAny` world to its input statuses;
the failure reason of the aggregate is the synthetic message exactly when it
is rejected. -/
def InvAny (N : Nat) (w : AnyWorld) : Prop :=
  w.inputs.length = N ∧
  w.Key = (w.inputs.length : Int) - (cR w.inputs : Int) ∧
  (w.HasCompleted = true ↔ 0 < cF w.inputs) ∧
  w.agg = [{ State := anyStatus w.inputs,
             FailureReason :=
               if anyStatus w.inputs = EState.Rejected then some allRejectedMsg else none,
             VoidThenCallbacks := [], CatchCallbacks := [] }]

/-- Reason used as the first rejection in concrete scenarios. -/
def reasonA : String := "first failure"

/-- Reason used as the second rejection in concrete scenarios. -/
def reasonB : String := "second failure"

/-- A generic demonstration failure reason. -/
def demoReason : String := "demo failure"

/-- The chain obtained by registering a value-less then delegate (id 1) and
afterwards a value-taking then delegate (id 2) on a fresh typed state. -/
def c2Chain : List (TCell Nat) := (AddThen 2 (AddVoidThen 1 [freshTCell]).1).1

/-! ## Basic step lemmas about the typed state machine -/

/-- Fulfilling a chain whose head is pending with no stored value resolves
the head and fires its then delegates before anything happens to the tail. -/
theorem Fulfill_cons_pending (v : V) (c : TCell V) (t : List (TCell V))
    (h1 : c.State = EState.Pending) (h2 : c.ResultValue = none) :
    Fulfill v (c :: t) =
      (fulfilledCell v c :: (Fulfill v t).1, fulfillEventsOf v c ++ (Fulfill v t).2) := by
  simp [Fulfill, h1, h2, fulfilledCell, fulfillEventsOf]

/-- Fulfilling a chain whose head is not pending is a no-op. -/
theorem Fulfill_noop (v : V) (c : TCell V) (t : List (TCell V))
    (h : ¬ c.State = EState.Pending) :
    Fulfill v (c :: t) = (c :: t, []) := by
  simp [Fulfill, h]

/-- Rejecting a chain whose head is pending resolves the head and fires its
catch delegates before anything happens to the tail. -/
theorem Throw_cons_pending (Reason : String) (c : TCell V) (t : List (TCell V))
    (h : c.State = EState.Pending) :
    Throw Reason (c :: t) =
      (rejectedCell Reason c :: (Throw Reason t).1,
        catchEventsOf Reason c ++ (Throw Reason t).2) := by
  simp [Throw, h, rejectedCell, catchEventsOf]

/-- Rejecting a chain whose head is fulfilled (hence has no stored failure
reason) is a no-op. -/
theorem Throw_noop (Reason : String) (c : TCell V) (t : List (TCell V))
    (h1 : c.State = EState.Fulfilled) (h2 : c.FailureReason = none) :
    Throw Reason (c :: t) = (c :: t, []) := by
  simp [Throw, h1, h2]

/-- Fulfilling an everywhere-pending chain resolves every cell with the same
value and produces, cell by cell in chain order, exactly the events of that
cell. -/
theorem Fulfill_all_pending (v : V) :
    ∀ ch : List (TCell V), (∀ c ∈ ch, c.State = EState.Pending ∧ c.ResultValue = none) →
      Fulfill v ch = (ch.map (fulfilledCell v), (ch.map (fulfillEventsOf v)).flatten) := by
  intro ch
  induction ch with
  | nil => intro _; simp [Fulfill]
  | cons c rest ih =>
    intro h
    have hc := h c (by simp)
    have hrest := ih (fun x hx => h x (by simp [hx]))
    rw [Fulfill_cons_pending v c rest hc.1 hc.2, hrest]
    simp

/-- Rejecting an everywhere-pending chain rejects every cell with the same
reason and produces, cell by cell in chain order, exactly the catch events
of that cell. -/
theorem Throw_all_pending (Reason : String) :
    ∀ ch : List (TCell V), (∀ c ∈ ch, c.State = EState.Pending) →
      Throw Reason ch = (ch.map (rejectedCell Reason), (ch.map (catchEventsOf Reason)).flatten) := by
  intro ch
  induction ch with
  | nil => intro _; simp [Throw]
  | cons c rest ih =>
    intro h
    have hc := h c (by simp)
    have hrest := ih (fun x hx => h x (by simp [hx]))
    rw [Throw_cons_pending Reason c rest hc, hrest]
    simp

/-- Every event fired during a rejection is the execution of a catch
delegate with the rejection reason: then delegates never run. -/
theorem Throw_events_are_catch (Reason : String) :
    ∀ (ch : List (TCell V)) (e : FireEvent V),
      e ∈ (Throw Reason ch).2 → ∃ i, e = FireEvent.catchFired i Reason := by
  intro ch
  induction ch with
  | nil => intro e he; simp [Throw] at he
  | cons c rest ih =>
    intro e he
    by_cases hg : ¬ (c.State = EState.Pending) ∧ c.FailureReason = none
    · rw [Throw, if_pos hg] at he
      simp at he
    · rw [Throw, if_neg hg] at he
      simp at he
      rcases he with ⟨i, _, rfl⟩ | h2
      · exact ⟨i, rfl⟩
      · exact ih e h2

/-- Every event fired during a fulfillment is the execution of a then
delegate (value-taking with the stored value, or value-less): catch
delegates never run. -/
theorem Fulfill_events_are_then (v : V) :
    ∀ (ch : List (TCell V)) (e : FireEvent V),
      e ∈ (Fulfill v ch).2 →
        (∃ i, e = FireEvent.thenFired i v) ∨ ∃ i, e = FireEvent.voidThenFired i := by
  intro ch
  induction ch with
  | nil => intro e he; simp [Fulfill] at he
  | cons c rest ih =>
    intro e he
    by_cases hg : c.State = EState.Pending ∧ c.ResultValue = none
    · rw [Fulfill, if_pos hg] at he
      simp at he
      rcases he with ⟨i, _, rfl⟩ | ⟨i, _, rfl⟩ | h2
      · exact Or.inl ⟨i, rfl⟩
      · exact Or.inr ⟨i, rfl⟩
      · exact ih e h2
    · rw [Fulfill, if_neg hg] at he
      simp at he

/-- Creating the continuation child preserves the shape invariant. -/
theorem tailNice_lazy (t : List (TCell V)) (ht : TailNice t) :
    TailNice (LazyGetContinuation t) := by
  rcases ht with h | h <;> subst h
  · exact Or.inr rfl
  · exact Or.inr rfl

/-- Folding a registration sequence over a fresh pending state appends the
value-taking ids to `ThenCallbacks` and the value-less ids to
`VoidThenCallbacks`, each in registration order, and otherwise leaves the
head untouched. -/
theorem foldl_applyReg_pending :
    ∀ (regs : List Reg) (c : TCell V) (t : List (TCell V)),
      c.State = EState.Pending → TailNice t →
      ∃ t2 : List (TCell V), TailNice t2 ∧
        regs.foldl applyReg (c :: t) =
          { c with ThenCallbacks := c.ThenCallbacks ++ typedIds regs,
                   VoidThenCallbacks := c.VoidThenCallbacks ++ voidIds regs } :: t2 := by
  intro regs
  induction regs with
  | nil =>
    intro c t hc ht
    exact ⟨t, ht, by simp [typedIds, voidIds]⟩
  | cons r regs ih =>
    intro c t hc ht
    cases r with
    | typed i =>
      have step : applyReg (c :: t) (Reg.typed i)
          = { c with ThenCallbacks := c.ThenCallbacks ++ [i] } :: LazyGetContinuation t := by
        simp [applyReg, AddThen, hc]
      obtain ⟨t2, ht2, heq⟩ := ih { c with ThenCallbacks := c.ThenCallbacks ++ [i] }
        (LazyGetContinuation t) (by simpa using hc) (tailNice_lazy t ht)
      refine ⟨t2, ht2, ?_⟩
      rw [List.foldl_cons, step, heq]
      simp [typedIds, voidIds]
    | voidReg i =>
      have step : applyReg (c :: t) (Reg.voidReg i)
          = { c with VoidThenCallbacks := c.VoidThenCallbacks ++ [i] } :: LazyGetContinuation t := by
        simp [applyReg, AddVoidThen, hc]
      obtain ⟨t2, ht2, heq⟩ := ih { c with VoidThenCallbacks := c.VoidThenCallbacks ++ [i] }
        (LazyGetContinuation t) (by simpa using hc) (tailNice_lazy t ht)
      refine ⟨t2, ht2, ?_⟩
      rw [List.foldl_cons, step, heq]
      simp [typedIds, voidIds]

/-! ## Claim theorems -/

/-- C1 (code divergence witnessed on the embedded code).  Fulfilling twice
keeps the first value, as the claim states; but rejecting twice does not
leave the stored failure reason unchanged: the second `Throw` call on an
already-Rejected state passes the guard
`if (!ensure(State == Pending) && !FailureReason.IsSet()) return;`
(the state is not Pending, but a failure reason IS set, so the function does
not return) and overwrites the stored reason with the new one. -/
theorem throw_after_throw_overwrites_reason :
    (Fulfill 2 ((Fulfill 1 [(freshTCell : TCell Nat)]).1)).1
        = [{ State := EState.Fulfilled, ResultValue := some 1 }] ∧
    (Throw reasonA [(freshTCell : TCell Nat)]).1
        = [{ State := EState.Rejected, FailureReason := some reasonA }] ∧
    (Throw reasonB ((Throw reasonA [(freshTCell : TCell Nat)]).1)).1
        = [{ State := EState.Rejected, FailureReason := some reasonB }] ∧
    ¬ reasonB = reasonA := by
  decide

/-- C2 (counterexample to the claim as stated).  Register a value-less then
delegate (id 1) first and a value-taking then delegate (id 2) second on the
same fresh state; fulfilling the state fires id 2 before id 1, not in
registration order. -/
theorem mixed_registration_fires_out_of_order :
    (Fulfill 0 c2Chain).2 = [FireEvent.thenFired 2 0, FireEvent.voidThenFired 1] ∧
    ¬ (Fulfill 0 c2Chain).2 = [FireEvent.voidThenFired 1, FireEvent.thenFired 2 0] := by
  decide

/-- C2 (amended).  For every sequence of fulfillment registrations on one
fresh state, in any mix of value-taking and value-less delegates, resolving
the state fires all value-taking delegates first, in their registration
order, and then all value-less delegates, in their registration order.  In
particular, when all registrations are of one kind, the firing order is
exactly the registration order. -/
theorem fulfill_fires_typed_then_void_in_order (regs : List Reg) (v : V) :
    (Fulfill v (regs.foldl applyReg [(freshTCell : TCell V)])).2 =
      (typedIds regs).map (fun i => FireEvent.thenFired i v)
        ++ (voidIds regs).map (fun i => FireEvent.voidThenFired i) := by
  obtain ⟨t2, ht2, heq⟩ :=
    foldl_applyReg_pending regs (freshTCell : TCell V) ([] : List (TCell V)) rfl (Or.inl rfl)
  rw [heq, Fulfill_cons_pending v _ t2 rfl rfl]
  rcases ht2 with h | h <;> subst h <;>
    simp [Fulfill, fulfillEventsOf, freshTCell]

/-- C3.  When an everywhere-pending chain is resolved, every cell receives
exactly the outcome of its parent (the same value on fulfillment, the same
reason on rejection), and the trace is the concatenation, in chain order, of
each cells own events: all direct continuations of a state fire completely
before its continuation child is resolved.  In `f.then(A).then(B)`, A lives
on the head and B on its child, so A fires before B. -/
theorem resolution_propagates_in_chain_order (v : V) (Reason : String)
    (ch : List (TCell V))
    (h : ∀ c ∈ ch, c.State = EState.Pending ∧ c.ResultValue = none) :
    Fulfill v ch = (ch.map (fulfilledCell v), (ch.map (fulfillEventsOf v)).flatten) ∧
    Throw Reason ch = (ch.map (rejectedCell Reason), (ch.map (catchEventsOf Reason)).flatten) := by
  exact ⟨Fulfill_all_pending v ch h, Throw_all_pending Reason ch (fun c hc => (h c hc).1)⟩

/-- C3 witness: the chain of `f.then(A).then(B)` with A = id 1 on the head
and B = id 2 on the child; fulfilling the head fires A then B and fulfills
both cells with the same value, and rejecting it instead rejects both cells
with the same reason. -/
theorem resolution_propagates_witness :
    (∀ c ∈ [({ VoidThenCallbacks := [1] } : TCell Nat), { VoidThenCallbacks := [2] }],
        c.State = EState.Pending ∧ c.ResultValue = none) ∧
    Fulfill 5 [({ VoidThenCallbacks := [1] } : TCell Nat), { VoidThenCallbacks := [2] }]
      = ([{ State := EState.Fulfilled, ResultValue := some 5 },
          { State := EState.Fulfilled, ResultValue := some 5 }],
         [FireEvent.voidThenFired 1, FireEvent.voidThenFired 2]) := by
  refine ⟨by decide, ?_⟩
  have h := resolution_propagates_in_chain_order 5 demoReason
    [({ VoidThenCallbacks := [1] } : TCell Nat), { VoidThenCallbacks := [2] }] (by decide)
  exact h.1.trans (by decide)

/-- C6.  Destroying a promise whose (everywhere-pending) state chain is
still pending rejects the state with the abandonment reason and fires every
catch delegate registered beforehand exactly once, in registration order,
with that reason (the trace lists each registered catch id once); destroying
it after the state was fulfilled or rejected changes nothing and fires no
callbacks. -/
theorem promise_destruction (c : TCell V) (t : List (TCell V)) :
    ((∀ x ∈ c :: t, x.State = EState.Pending) →
      PromiseDestroy (c :: t) =
        ((c :: t).map (rejectedCell destroyedMsg),
         ((c :: t).map (catchEventsOf destroyedMsg)).flatten)) ∧
    (¬ c.State = EState.Pending → PromiseDestroy (c :: t) = (c :: t, [])) := by
  constructor
  · intro h
    have hc := h c (by simp)
    have hunf : PromiseDestroy (c :: t) = Throw destroyedMsg (c :: t) := by
      simp [PromiseDestroy, hc]
    rw [hunf]
    exact Throw_all_pending destroyedMsg (c :: t) h
  · intro h
    simp [PromiseDestroy, h]

/-- C6 witness: a pending state with one catch delegate (id 7) fires it once
with the abandonment reason on destruction; a fulfilled state is untouched
by destruction. -/
theorem promise_destruction_witness :
    (∀ x ∈ [({ CatchCallbacks := [7] } : TCell Nat)], x.State = EState.Pending) ∧
    PromiseDestroy [({ CatchCallbacks := [7] } : TCell Nat)]
      = ([{ State := EState.Rejected, FailureReason := some destroyedMsg }],
         [FireEvent.catchFired 7 destroyedMsg]) ∧
    PromiseDestroy [({ State := EState.Fulfilled, ResultValue := some 3 } : TCell Nat)]
      = ([{ State := EState.Fulfilled, ResultValue := some 3 }], []) := by
  refine ⟨by decide, ?_, ?_⟩
  · have h := (promise_destruction ({ CatchCallbacks := [7] } : TCell Nat) []).1 (by decide)
    exact h.trans (by decide)
  · exact (promise_destruction
      ({ State := EState.Fulfilled, ResultValue := some 3 } : TCell Nat) []).2 (by decide)

/-- C7.  Rejection fires only catch delegates (a then delegate registered on
a state that later rejects never fires), fulfillment fires only then
delegates (a catch delegate registered on a state that later fulfills never
fires); a then delegate registered on an already-Rejected state and a catch
delegate registered on an already-Fulfilled state are discarded without
running (the head keeps its callback lists, no event is produced); and after
a resolution the opposite resolution is a no-op, so the discarded or
bypassed delegates can never fire later either. -/
theorem rejection_bypass :
    (∀ (Reason : String) (ch : List (TCell V)) (e : FireEvent V),
        e ∈ (Throw Reason ch).2 → ∃ i, e = FireEvent.catchFired i Reason) ∧
    (∀ (v : V) (ch : List (TCell V)) (e : FireEvent V),
        e ∈ (Fulfill v ch).2 →
          (∃ i, e = FireEvent.thenFired i v) ∨ ∃ i, e = FireEvent.voidThenFired i) ∧
    (∀ (id : Nat) (c : TCell V) (t : List (TCell V)), c.State = EState.Rejected →
        AddThen id (c :: t) = (c :: LazyGetContinuation t, []) ∧
        AddVoidThen id (c :: t) = (c :: LazyGetContinuation t, [])) ∧
    (∀ (id : Nat) (c : TCell V) (t : List (TCell V)), c.State = EState.Fulfilled →
        AddCatch id (c :: t) = (c :: LazyGetContinuation t, [])) ∧
    (∀ (v : V) (Reason : String) (c : TCell V) (t : List (TCell V)),
        c.State = EState.Pending →
        Fulfill v (Throw Reason (c :: t)).1 = ((Throw Reason (c :: t)).1, [])) ∧
    (∀ (v : V) (Reason : String) (c : TCell V) (t : List (TCell V)),
        c.State = EState.Pending → c.ResultValue = none → c.FailureReason = none →
        Throw Reason (Fulfill v (c :: t)).1 = ((Fulfill v (c :: t)).1, [])) := by
  refine ⟨Throw_events_are_catch, Fulfill_events_are_then, ?_, ?_, ?_, ?_⟩
  · intro id c t h
    constructor
    · simp [AddThen, h]
    · simp [AddVoidThen, h]
  · intro id c t h
    simp [AddCatch, h]
  · intro v Reason c t h
    rw [Throw_cons_pending Reason c t h]
    exact Fulfill_noop v _ _ (by simp [rejectedCell])
  · intro v Reason c t h1 h2 h3
    rw [Fulfill_cons_pending v c t h1 h2]
    exact Throw_noop Reason _ _ (by simp [fulfilledCell]) (by simp [fulfilledCell, h3])

/-- C7 witness: a then delegate on an already-Rejected state and a catch
delegate on an already-Fulfilled state are discarded, and fulfilling an
already-rejected chain is a no-op. -/
theorem rejection_bypass_witness :
    ({ State := EState.Rejected, FailureReason := some demoReason } : TCell Nat).State
        = EState.Rejected ∧
    AddThen 9 [({ State := EState.Rejected, FailureReason := some demoReason } : TCell Nat)]
      = ([{ State := EState.Rejected, FailureReason := some demoReason }, freshTCell], []) ∧
    AddCatch 9 [({ State := EState.Fulfilled, ResultValue := some 4 } : TCell Nat)]
      = ([{ State := EState.Fulfilled, ResultValue := some 4 }, freshTCell], []) ∧
    Fulfill 5 (Throw demoReason [(freshTCell : TCell Nat)]).1
      = ((Throw demoReason [(freshTCell : TCell Nat)]).1, []) := by
  refine ⟨rfl, ?_, ?_, ?_⟩
  · exact ((rejection_bypass (V := Nat)).2.2.1 9
      ({ State := EState.Rejected, FailureReason := some demoReason } : TCell Nat) []
      rfl).1
  · exact (rejection_bypass (V := Nat)).2.2.2.1 9
      ({ State := EState.Fulfilled, ResultValue := some 4 } : TCell Nat) [] rfl
  · exact (rejection_bypass (V := Nat)).2.2.2.2.1 5 demoReason freshTCell [] rfl

/-- C8.  Registering a value-taking then delegate on an already-Fulfilled
state executes it synchronously, exactly once, with the stored value, within
the registration call (the single event is part of the registration result);
likewise a value-less then delegate on a fulfilled state, and a catch
delegate on an already-Rejected state with the stored failure reason.  The
state itself is unchanged apart from the lazily created continuation. -/
theorem immediate_fire_on_registration (id : Nat) (c : TCell V) (t : List (TCell V)) :
    (∀ v : V, c.State = EState.Fulfilled → c.ResultValue = some v →
        AddThen id (c :: t) = (c :: LazyGetContinuation t, [FireEvent.thenFired id v])) ∧
    (c.State = EState.Fulfilled →
        AddVoidThen id (c :: t) = (c :: LazyGetContinuation t, [FireEvent.voidThenFired id])) ∧
    (∀ Reason : String, c.State = EState.Rejected → c.FailureReason = some Reason →
        AddCatch id (c :: t) = (c :: LazyGetContinuation t, [FireEvent.catchFired id Reason])) := by
  refine ⟨?_, ?_, ?_⟩
  · intro v h1 h2
    simp [AddThen, h1, h2]
  · intro h
    simp [AddVoidThen, h]
  · intro Reason h1 h2
    simp [AddCatch, h1, h2]

/-- C8 witness: a then delegate registered on a state fulfilled with 9 fires
immediately with 9; a catch delegate registered on a state rejected with the
demo reason fires immediately with that reason. -/
theorem immediate_fire_witness :
    AddThen 4 [({ State := EState.Fulfilled, ResultValue := some 9 } : TCell Nat)]
      = ([{ State := EState.Fulfilled, ResultValue := some 9 }, freshTCell],
         [FireEvent.thenFired 4 9]) ∧
    AddCatch 6 [({ State := EState.Rejected, FailureReason := some demoReason } : TCell Nat)]
      = ([{ State := EState.Rejected, FailureReason := some demoReason }, freshTCell],
         [FireEvent.catchFired 6 demoReason]) := by
  constructor
  · exact (immediate_fire_on_registration 4
      ({ State := EState.Fulfilled, ResultValue := some 9 } : TCell Nat) []).1 9 rfl rfl
  · exact (immediate_fire_on_registration 6
      ({ State := EState.Rejected, FailureReason := some demoReason } : TCell Nat) []).2.2
      demoReason rfl rfl

/-- C10.  `TryGetValue` on a Fulfilled state returns true and copies the
stored value into the out parameter; on any other state it returns false and
leaves the out parameter unchanged.  The state component of the result is
the input state itself: the call never modifies the state. -/
theorem tryGetValue_spec (c : TCell V) (OutValue : V) :
    (∀ v : V, c.State = EState.Fulfilled → c.ResultValue = some v →
        TryGetValue c OutValue = (true, v, c)) ∧
    (¬ c.State = EState.Fulfilled → TryGetValue c OutValue = (false, OutValue, c)) := by
  constructor
  · intro v h1 h2
    simp [TryGetValue, h1, h2]
  · intro h
    simp [TryGetValue, h]

/-- C10 witness: reading a state fulfilled with 42 yields true and 42 and
returns the state unchanged; reading a pending state yields false and the
callers original out value. -/
theorem tryGetValue_witness :
    TryGetValue ({ State := EState.Fulfilled, ResultValue := some 42 } : TCell Nat) 0
      = (true, 42, { State := EState.Fulfilled, ResultValue := some 42 }) ∧
    TryGetValue (freshTCell : TCell Nat) 0 = (false, 0, freshTCell) := by
  constructor
  · exact (tryGetValue_spec
      ({ State := EState.Fulfilled, ResultValue := some 42 } : TCell Nat) 0).1 42 rfl rfl
  · exact (tryGetValue_spec (freshTCell : TCell Nat) 0).2 (by decide)

/-- C9 (partial confirmation plus code divergence, witnessed on the embedded
code).  An invalid (null-state) handle yields the shared error state, which
is permanently Rejected with the fixed diagnostic reason (a later `Fulfill`
on it is a no-op).  A conversion of a valid untyped handle to a typed view
whose requested type does not match the underlying dynamic type, however,
does NOT yield the error state: the static downcast of a non-null pointer in
`GetTypedState` is never null, so the `ensureAlwaysMsgf` null check cannot
fail and the call returns the same underlying state (here still Pending)
under the mismatched type. -/
theorem typed_state_access :
    GetTypedState 1 none = { tag := 1, chain := errorChain } ∧
    errorChain = [{ State := EState.Rejected, FailureReason := some errorMsg }] ∧
    Fulfill 0 errorChain = (errorChain, []) ∧
    GetTypedState 1 (some { tag := 0, chain := [freshTCell] })
      = { tag := 0, chain := [freshTCell] } ∧
    ¬ (0 = 1) ∧
    ¬ ((freshTCell : TCell Nat).State = EState.Rejected) := by
  decide

/-! ## Counting infrastructure for the combinator proofs -/

/-- Setting index `i` of a list exchanges the counted contribution of the
old element for that of the new one. -/
theorem countP_set_aux {α : Type} (p : α → Bool) :
    ∀ (l : List α) (i : Nat) (a b : α), l[i]? = some a →
      (l.set i b).countP p + (if p a then 1 else 0)
        = l.countP p + (if p b then 1 else 0) := by
  intro l
  induction l with
  | nil => intro i a b h; simp at h
  | cons x xs ih =>
    intro i a b h
    cases i with
    | zero =>
      rw [List.getElem?_cons_zero, Option.some_inj] at h
      subst h
      rw [List.set_cons_zero, List.countP_cons, List.countP_cons]
      omega
    | succ i =>
      rw [List.getElem?_cons_succ] at h
      have hx := ih i a b h
      rw [List.set_cons_succ, List.countP_cons, List.countP_cons]
      omega

/-- Fulfilling a pending input increments the fulfilled count. -/
theorem cF_set_fulfilled {l : List EState} {i : Nat} (h : l[i]? = some EState.Pending) :
    cF (l.set i EState.Fulfilled) = cF l + 1 := by
  have hx := countP_set_aux (fun s => decide (s = EState.Fulfilled)) l i
    EState.Pending EState.Fulfilled h
  simpa [cF] using hx

/-- Fulfilling a pending input leaves the rejected count unchanged. -/
theorem cR_set_fulfilled {l : List EState} {i : Nat} (h : l[i]? = some EState.Pending) :
    cR (l.set i EState.Fulfilled) = cR l := by
  have hx := countP_set_aux (fun s => decide (s = EState.Rejected)) l i
    EState.Pending EState.Fulfilled h
  simpa [cR] using hx

/-- Rejecting a pending input leaves the fulfilled count unchanged. -/
theorem cF_set_rejected {l : List EState} {i : Nat} (h : l[i]? = some EState.Pending) :
    cF (l.set i EState.Rejected) = cF l := by
  have hx := countP_set_aux (fun s => decide (s = EState.Fulfilled)) l i
    EState.Pending EState.Rejected h
  simpa [cF] using hx

/-- Rejecting a pending input increments the rejected count. -/
theorem cR_set_rejected {l : List EState} {i : Nat} (h : l[i]? = some EState.Pending) :
    cR (l.set i EState.Rejected) = cR l + 1 := by
  have hx := countP_set_aux (fun s => decide (s = EState.Rejected)) l i
    EState.Pending EState.Rejected h
  simpa [cR] using hx

/-- An input is fulfilled or rejected or neither, so the two counts fit in
the length together. -/
theorem cF_add_cR_le : ∀ l : List EState, cF l + cR l ≤ l.length := by
  intro l
  induction l with
  | nil => simp [cF, cR]
  | cons x xs ih =>
    have hF : cF (x :: xs) = cF xs + (if x = EState.Fulfilled then 1 else 0) := by
      by_cases hx : x = EState.Fulfilled <;> simp [cF, List.countP_cons, hx]
    have hR : cR (x :: xs) = cR xs + (if x = EState.Rejected then 1 else 0) := by
      by_cases hx : x = EState.Rejected <;> simp [cR, List.countP_cons, hx]
    cases x <;> simp only [List.length_cons] <;> rw [hF, hR] <;> simp <;> omega

/-- A list with a pending entry is neither all fulfilled nor all rejected. -/
theorem pending_counts {l : List EState} {i : Nat} (h : l[i]? = some EState.Pending) :
    cF l < l.length ∧ cR l < l.length := by
  have hmem := List.getElem?_mem h
  constructor
  · rcases Nat.lt_or_ge (cF l) l.length with hlt | hge
    · exact hlt
    · have heq : cF l = l.length :=
        Nat.le_antisymm (List.countP_le_length _) hge
      have hx := (List.countP_eq_length).mp heq _ hmem
      simp [cF] at hx
  · rcases Nat.lt_or_ge (cR l) l.length with hlt | hge
    · exact hlt
    · have heq : cR l = l.length :=
        Nat.le_antisymm (List.countP_le_length _) hge
      have hx := (List.countP_eq_length).mp heq _ hmem
      simp [cR] at hx

/-- Fulfilling a single-cell pending aggregate resolves it Fulfilled and
keeps its stored reason. -/
theorem VFulfill_one (rs : Option String) :
    VFulfill [{ State := EState.Pending, FailureReason := rs,
                VoidThenCallbacks := [], CatchCallbacks := [] }]
      = ([{ State := EState.Fulfilled, FailureReason := rs,
            VoidThenCallbacks := [], CatchCallbacks := [] }], []) := rfl

/-- Rejecting a single-cell pending aggregate resolves it Rejected with the
given reason. -/
theorem VThrow_one (Reason : String) (rs : Option String) :
    VThrow Reason [{ State := EState.Pending, FailureReason := rs,
                     VoidThenCallbacks := [], CatchCallbacks := [] }]
      = ([{ State := EState.Rejected, FailureReason := some Reason,
            VoidThenCallbacks := [], CatchCallbacks := [] }], []) := rfl

/-- One input resolution preserves the `FutureAll` world invariant. -/
theorem stepAll_inv {N : Nat} {w : AllWorld} (e : CEvent) (h : InvAll N w) :
    InvAll N (stepAll w e) := by
  obtain ⟨hlen, hkey, hflag, rs, hagg⟩ := h
  cases e with
  | fulfillI i =>
    cases hg : w.inputs[i]? with
    | none =>
      simp only [stepAll, hg]
      exact ⟨hlen, hkey, hflag, rs, hagg⟩
    | some s =>
      cases s with
      | Fulfilled =>
        simp only [stepAll, hg]
        exact ⟨hlen, hkey, hflag, rs, hagg⟩
      | Rejected =>
        simp only [stepAll, hg]
        exact ⟨hlen, hkey, hflag, rs, hagg⟩
      | Pending =>
        have hcf := cF_set_fulfilled hg
        have hcr := cR_set_fulfilled hg
        have hlen2 := List.length_set w.inputs i EState.Fulfilled
        have hlt := (pending_counts hg).1
        simp only [stepAll, hg]
        by_cases hk : w.Key - 1 = 0
        · rw [if_pos hk]
          have hcr0 : cR w.inputs = 0 := by
            have hle := cF_add_cR_le (w.inputs.set i EState.Fulfilled)
            rw [hcf, hcr, hlen2] at hle
            omega
          have hstat : allStatus w.inputs = EState.Pending := by
            simp only [allStatus]
            rw [if_neg (by omega), if_neg (by omega)]
          have hstat2 : allStatus (w.inputs.set i EState.Fulfilled) = EState.Fulfilled := by
            simp only [allStatus]
            rw [hcf, hcr, hlen2, if_neg (by omega), if_pos (by omega)]
          refine ⟨?_, ?_, ?_, rs, ?_⟩
          · show (w.inputs.set i EState.Fulfilled).length = N
            rw [hlen2]; exact hlen
          · show w.Key - 1 = ((w.inputs.set i EState.Fulfilled).length : Int)
              - (cF (w.inputs.set i EState.Fulfilled) : Int)
            rw [hcf, hlen2]; omega
          · show w.HasErrored = true ↔ 0 < cR (w.inputs.set i EState.Fulfilled)
            rw [hcr]; exact hflag
          · show (VFulfill w.agg).1 = _
            rw [hagg, hstat, VFulfill_one, hstat2]
        · rw [if_neg hk]
          have hne2 : ¬ (cF w.inputs = w.inputs.length) := by omega
          have hne1 : ¬ (cF w.inputs + 1 = w.inputs.length) := by omega
          have hstat3 : allStatus (w.inputs.set i EState.Fulfilled) = allStatus w.inputs := by
            simp only [allStatus, hcf, hcr, hlen2]
            by_cases h1 : 0 < cR w.inputs
            · rw [if_pos h1, if_pos h1]
            · rw [if_neg h1, if_neg h1, if_neg hne1, if_neg hne2]
          refine ⟨?_, ?_, ?_, rs, ?_⟩
          · show (w.inputs.set i EState.Fulfilled).length = N
            rw [hlen2]; exact hlen
          · show w.Key - 1 = ((w.inputs.set i EState.Fulfilled).length : Int)
              - (cF (w.inputs.set i EState.Fulfilled) : Int)
            rw [hcf, hlen2]; omega
          · show w.HasErrored = true ↔ 0 < cR (w.inputs.set i EState.Fulfilled)
            rw [hcr]; exact hflag
          · show w.agg = _
            rw [hstat3]; exact hagg
  | rejectI i r =>
    cases hg : w.inputs[i]? with
    | none =>
      simp only [stepAll, hg]
      exact ⟨hlen, hkey, hflag, rs, hagg⟩
    | some s =>
      cases s with
      | Fulfilled =>
        simp only [stepAll, hg]
        exact ⟨hlen, hkey, hflag, rs, hagg⟩
      | Rejected =>
        simp only [stepAll, hg]
        exact ⟨hlen, hkey, hflag, rs, hagg⟩
      | Pending =>
        have hcf := cF_set_rejected hg
        have hcr := cR_set_rejected hg
        have hlen2 := List.length_set w.inputs i EState.Rejected
        have hlt := (pending_counts hg).1
        simp only [stepAll, hg]
        by_cases hfl : w.HasErrored = false
        · rw [if_pos hfl]
          have hcr0 : cR w.inputs = 0 := by
            rcases Nat.eq_zero_or_pos (cR w.inputs) with h0 | hpos
            · exact h0
            · exact absurd (hflag.mpr hpos) (by simp [hfl])
          have hstat : allStatus w.inputs = EState.Pending := by
            simp only [allStatus]
            rw [if_neg (by omega), if_neg (by omega)]
          have hstat2 : allStatus (w.inputs.set i EState.Rejected) = EState.Rejected := by
            simp only [allStatus]
            rw [hcr, if_pos (by omega)]
          refine ⟨?_, ?_, ?_, some r, ?_⟩
          · show (w.inputs.set i EState.Rejected).length = N
            rw [hlen2]; exact hlen
          · show w.Key = ((w.inputs.set i EState.Rejected).length : Int)
              - (cF (w.inputs.set i EState.Rejected) : Int)
            rw [hcf, hlen2]; omega
          · show true = true ↔ 0 < cR (w.inputs.set i EState.Rejected)
            rw [hcr]
            exact ⟨fun _ => by omega, fun _ => rfl⟩
          · show (VThrow r w.agg).1 = _
            rw [hagg, hstat, VThrow_one, hstat2]
        · rw [if_neg hfl]
          have hfl2 : w.HasErrored = true := by
            revert hfl; cases w.HasErrored <;> simp
          have hpos : 0 < cR w.inputs := hflag.mp hfl2
          have hstat3 : allStatus (w.inputs.set i EState.Rejected) = allStatus w.inputs := by
            simp only [allStatus, hcf, hcr, hlen2]
            rw [if_pos (by omega), if_pos hpos]
          refine ⟨?_, ?_, ?_, rs, ?_⟩
          · show (w.inputs.set i EState.Rejected).length = N
            rw [hlen2]; exact hlen
          · show w.Key = ((w.inputs.set i EState.Rejected).length : Int)
              - (cF (w.inputs.set i EState.Rejected) : Int)
            rw [hcf, hlen2]; omega
          · show w.HasErrored = true ↔ 0 < cR (w.inputs.set i EState.Rejected)
            rw [hcr]
            exact ⟨fun _ => by omega, fun _ => hfl2⟩
          · show w.agg = _
            rw [hstat3]; exact hagg

/-- The initial `FutureAll` world satisfies the invariant. -/
theorem initAll_inv (N : Nat) : InvAll N (initAll N) := by
  by_cases h0 : N = 0
  · subst h0
    exact ⟨by decide, by decide, by decide, none, by decide⟩
  · have hrepl : initAll N =
        { inputs := List.replicate N EState.Pending, Key := (N : Int),
          HasErrored := false, agg := [{}] } := by
      simp [initAll, h0]
    have hcf : cF (List.replicate N EState.Pending) = 0 := by
      simp [cF, List.countP_replicate]
    have hcr : cR (List.replicate N EState.Pending) = 0 := by
      simp [cR, List.countP_replicate]
    rw [hrepl]
    refine ⟨List.length_replicate N EState.Pending, ?_, ?_, none, ?_⟩
    · show (N : Int) = ((List.replicate N EState.Pending).length : Int)
        - (cF (List.replicate N EState.Pending) : Int)
      rw [hcf, List.length_replicate]
      omega
    · show false = true ↔ 0 < cR (List.replicate N EState.Pending)
      rw [hcr]
      simp
    · show [({} : VCell)] = _
      have hstat : allStatus (List.replicate N EState.Pending) = EState.Pending := by
        simp only [allStatus]
        rw [hcf, hcr, List.length_replicate]
        rw [if_neg (by omega), if_neg (by omega)]
      rw [hstat]

/-- Every reachable `FutureAll` world satisfies the invariant. -/
theorem foldl_stepAll_inv {N : Nat} (es : List CEvent) :
    ∀ w : AllWorld, InvAll N w → InvAll N (es.foldl stepAll w) := by
  induction es with
  | nil => intro w h; exact h
  | cons e es ih => intro w h; exact ih _ (stepAll_inv e h)

/-- The world reached by `runAll` satisfies the invariant. -/
theorem runAll_inv (N : Nat) (es : List CEvent) : InvAll N (runAll N es) :=
  foldl_stepAll_inv es _ (initAll_inv N)

/-- Fulfilling the aggregate never touches its stored failure reason. -/
theorem aggReason_VFulfill (vc : List VCell) : aggReason (VFulfill vc).1 = aggReason vc := by
  cases vc with
  | nil => rfl
  | cons c rest =>
    by_cases hc : c.State = EState.Pending
    · simp [VFulfill, hc, aggReason]
    · simp [VFulfill, hc, aggReason]

/-- Once `HasErrored` is set, a single further event neither touches the
aggregate nor clears the flag. -/
theorem stepAll_frozen {N : Nat} {w : AllWorld} (e : CEvent) (h : InvAll N w)
    (hf : w.HasErrored = true) :
    (stepAll w e).agg = w.agg ∧ (stepAll w e).HasErrored = true := by
  obtain ⟨hlen, hkey, hflag, rs, hagg⟩ := h
  have hpos : 0 < cR w.inputs := hflag.mp hf
  cases e with
  | fulfillI i =>
    cases hg : w.inputs[i]? with
    | none => simp [stepAll, hg, hf]
    | some s =>
      cases s with
      | Fulfilled => simp [stepAll, hg, hf]
      | Rejected => simp [stepAll, hg, hf]
      | Pending =>
        have hcf := cF_set_fulfilled hg
        have hcr := cR_set_fulfilled hg
        have hlen2 := List.length_set w.inputs i EState.Fulfilled
        have hle := cF_add_cR_le (w.inputs.set i EState.Fulfilled)
        rw [hcf, hcr, hlen2] at hle
        have hk : ¬ (w.Key - 1 = 0) := by omega
        simp only [stepAll, hg]
        rw [if_neg hk]
        exact ⟨rfl, hf⟩
  | rejectI i r =>
    cases hg : w.inputs[i]? with
    | none => simp [stepAll, hg, hf]
    | some s =>
      cases s with
      | Fulfilled => simp [stepAll, hg, hf]
      | Rejected => simp [stepAll, hg, hf]
      | Pending =>
        have hfneg : ¬ (w.HasErrored = false) := by simp [hf]
        simp only [stepAll, hg]
        rw [if_neg hfneg]
        exact ⟨rfl, hf⟩

/-- Once `HasErrored` is set, no sequence of further events touches the
aggregate. -/
theorem foldl_frozen_all {N : Nat} (es : List CEvent) :
    ∀ w : AllWorld, InvAll N w → w.HasErrored = true →
      (es.foldl stepAll w).agg = w.agg := by
  induction es with
  | nil => intro w _ _; rfl
  | cons e es ih =>
    intro w h hf
    have hstep := stepAll_frozen e h hf
    rw [List.foldl_cons, ih _ (stepAll_inv e h) hstep.2, hstep.1]

/-- After every input fulfilled, any further event is a no-op. -/
theorem stepAll_done {N : Nat} {w : AllWorld} (e : CEvent) (h : InvAll N w)
    (hall : cF w.inputs = w.inputs.length) : stepAll w e = w := by
  have hnp : ∀ i : Nat, ¬ (w.inputs[i]? = some EState.Pending) := by
    intro i hg
    have := (pending_counts hg).1
    omega
  cases e with
  | fulfillI i =>
    cases hg : w.inputs[i]? with
    | none => simp [stepAll, hg]
    | some s =>
      cases s with
      | Pending => exact absurd hg (hnp i)
      | Fulfilled => simp [stepAll, hg]
      | Rejected => simp [stepAll, hg]
  | rejectI i r =>
    cases hg : w.inputs[i]? with
    | none => simp [stepAll, hg]
    | some s =>
      cases s with
      | Pending => exact absurd hg (hnp i)
      | Fulfilled => simp [stepAll, hg]
      | Rejected => simp [stepAll, hg]

/-- After every input fulfilled, any sequence of further events is a no-op. -/
theorem foldl_done_all {N : Nat} (es : List CEvent) :
    ∀ w : AllWorld, InvAll N w → cF w.inputs = w.inputs.length →
      es.foldl stepAll w = w := by
  induction es with
  | nil => intro w _ _; rfl
  | cons e es ih =>
    intro w h hall
    rw [List.foldl_cons, stepAll_done e h hall]
    exact ih w h hall

/-- While no input has rejected yet, the reason the aggregate ends up with
is exactly the reason of the first rejection event that lands on a pending
input. -/
theorem reason_foldl_all {N : Nat} (es : List CEvent) :
    ∀ w : AllWorld, InvAll N w → w.HasErrored = false → aggReason w.agg = none →
      aggReason (es.foldl stepAll w).agg = firstEffReject w.inputs es := by
  induction es with
  | nil => intro w _ _ hr; simpa [firstEffReject] using hr
  | cons e es ih =>
    intro w h hf hr
    obtain ⟨hlen, hkey, hflag, rs, hagg⟩ := h
    have hrs : rs = none := by
      rw [hagg] at hr
      simpa [aggReason] using hr
    subst hrs
    cases e with
    | fulfillI i =>
      cases hg : w.inputs[i]? with
      | none =>
        have hw : stepAll w (CEvent.fulfillI i) = w := by simp [stepAll, hg]
        rw [List.foldl_cons, hw,
          ih w ⟨hlen, hkey, hflag, none, hagg⟩ hf hr]
        simp [firstEffReject, hg]
      | some s =>
        cases s with
        | Fulfilled =>
          have hw : stepAll w (CEvent.fulfillI i) = w := by simp [stepAll, hg]
          rw [List.foldl_cons, hw,
            ih w ⟨hlen, hkey, hflag, none, hagg⟩ hf hr]
          simp [firstEffReject, hg]
        | Rejected =>
          have hw : stepAll w (CEvent.fulfillI i) = w := by simp [stepAll, hg]
          rw [List.foldl_cons, hw,
            ih w ⟨hlen, hkey, hflag, none, hagg⟩ hf hr]
          simp [firstEffReject, hg]
        | Pending =>
          have hw1 : stepAll w (CEvent.fulfillI i)
              = { inputs := w.inputs.set i EState.Fulfilled, Key := w.Key - 1,
                  HasErrored := w.HasErrored,
                  agg := if w.Key - 1 = 0 then (VFulfill w.agg).1 else w.agg } := by
            simp only [stepAll, hg]
            by_cases hk : w.Key - 1 = 0
            · rw [if_pos hk, if_pos hk]
            · rw [if_neg hk, if_neg hk]
          have hinv1 := stepAll_inv (CEvent.fulfillI i)
            (⟨hlen, hkey, hflag, none, hagg⟩ : InvAll N w)
          have hr1 : aggReason (stepAll w (CEvent.fulfillI i)).agg = none := by
            rw [hw1]
            by_cases hk : w.Key - 1 = 0
            · rw [if_pos hk, aggReason_VFulfill]
              exact hr
            · rw [if_neg hk]
              exact hr
          have hf1 : (stepAll w (CEvent.fulfillI i)).HasErrored = false := by
            rw [hw1]
            exact hf
          rw [List.foldl_cons, ih _ hinv1 hf1 hr1, hw1]
          simp [firstEffReject, hg]
    | rejectI i r =>
      cases hg : w.inputs[i]? with
      | none =>
        have hw : stepAll w (CEvent.rejectI i r) = w := by simp [stepAll, hg]
        rw [List.foldl_cons, hw,
          ih w ⟨hlen, hkey, hflag, none, hagg⟩ hf hr]
        simp [firstEffReject, hg]
      | some s =>
        cases s with
        | Fulfilled =>
          have hw : stepAll w (CEvent.rejectI i r) = w := by simp [stepAll, hg]
          rw [List.foldl_cons, hw,
            ih w ⟨hlen, hkey, hflag, none, hagg⟩ hf hr]
          simp [firstEffReject, hg]
        | Rejected =>
          have hw : stepAll w (CEvent.rejectI i r) = w := by simp [stepAll, hg]
          rw [List.foldl_cons, hw,
            ih w ⟨hlen, hkey, hflag, none, hagg⟩ hf hr]
          simp [firstEffReject, hg]
        | Pending =>
          have hcr0 : cR w.inputs = 0 := by
            rcases Nat.eq_zero_or_pos (cR w.inputs) with h0 | hpos
            · exact h0
            · exact absurd (hflag.mpr hpos) (by simp [hf])
          have hlt := (pending_counts hg).1
          have hstat : allStatus w.inputs = EState.Pending := by
            simp only [allStatus]
            rw [if_neg (by omega), if_neg (by omega)]
          have hw1 : stepAll w (CEvent.rejectI i r)
              = { inputs := w.inputs.set i EState.Rejected, Key := w.Key,
                  HasErrored := true, agg := (VThrow r w.agg).1 } := by
            simp only [stepAll, hg]
            rw [if_pos hf]
          have hinv1 := stepAll_inv (CEvent.rejectI i r)
            (⟨hlen, hkey, hflag, none, hagg⟩ : InvAll N w)
          have hfl1 : (stepAll w (CEvent.rejectI i r)).HasErrored = true := by
            rw [hw1]
          rw [List.foldl_cons, foldl_frozen_all es _ hinv1 hfl1, hw1]
          have hthrown : aggReason (VThrow r w.agg).1 = some r := by
            rw [hagg, hstat, VThrow_one]
            rfl
          rw [hthrown]
          simp [firstEffReject, hg]

/-- C4.  `FutureAll` over an empty input array returns an immediately
Fulfilled aggregate, and Pending otherwise; after any event sequence the
aggregate is Fulfilled exactly when every input is fulfilled, Rejected
exactly when some input has rejected, carries the reason of the first
rejection that landed on a pending input, and once it is resolved no further
input resolution changes it. -/
theorem futureAll_spec (N : Nat) (es : List CEvent) :
    aggStatus (initAll N).agg = (if N = 0 then EState.Fulfilled else EState.Pending) ∧
    (aggStatus (runAll N es).agg = EState.Fulfilled ↔
      ∀ s ∈ (runAll N es).inputs, s = EState.Fulfilled) ∧
    (aggStatus (runAll N es).agg = EState.Rejected ↔
      ∃ s ∈ (runAll N es).inputs, s = EState.Rejected) ∧
    (∀ r : String, firstEffReject (initAll N).inputs es = some r →
      aggReason (runAll N es).agg = some r) ∧
    (¬ aggStatus (runAll N es).agg = EState.Pending →
      ∀ es2 : List CEvent, (es2.foldl stepAll (runAll N es)).agg = (runAll N es).agg) := by
  obtain ⟨hlen, hkey, hflag, rs, hagg⟩ := runAll_inv N es
  have hstatus : aggStatus (runAll N es).agg = allStatus (runAll N es).inputs := by
    rw [hagg]
    rfl
  refine ⟨?_, ?_, ?_, ?_, ?_⟩
  · by_cases h0 : N = 0
    · subst h0
      rw [if_pos rfl]
      decide
    · rw [if_neg h0]
      simp [initAll, h0, aggStatus]
  · rw [hstatus]
    constructor
    · intro hF
      have hcfl : cF (runAll N es).inputs = (runAll N es).inputs.length := by
        simp only [allStatus] at hF
        by_cases h1 : 0 < cR (runAll N es).inputs
        · rw [if_pos h1] at hF
          exact absurd hF (by decide)
        · rw [if_neg h1] at hF
          by_cases h2 : cF (runAll N es).inputs = (runAll N es).inputs.length
          · exact h2
          · rw [if_neg h2] at hF
            exact absurd hF (by decide)
      intro s hs
      have hx := (List.countP_eq_length).mp hcfl s hs
      exact of_decide_eq_true hx
    · intro hall
      have hcfl : cF (runAll N es).inputs = (runAll N es).inputs.length :=
        (List.countP_eq_length).mpr (fun a ha => by simp [hall a ha])
      have hcr0 : ¬ 0 < cR (runAll N es).inputs := by
        intro hpos
        obtain ⟨a, ha, hp⟩ := (List.countP_pos_iff).mp hpos
        have h1 := hall a ha
        rw [h1] at hp
        exact absurd hp (by decide)
      simp only [allStatus]
      rw [if_neg hcr0, if_pos hcfl]
  · rw [hstatus]
    constructor
    · intro hR
      have hpos : 0 < cR (runAll N es).inputs := by
        simp only [allStatus] at hR
        by_cases h1 : 0 < cR (runAll N es).inputs
        · exact h1
        · rw [if_neg h1] at hR
          by_cases h2 : cF (runAll N es).inputs = (runAll N es).inputs.length
          · rw [if_pos h2] at hR
            exact absurd hR (by decide)
          · rw [if_neg h2] at hR
            exact absurd hR (by decide)
      obtain ⟨a, ha, hp⟩ := (List.countP_pos_iff).mp hpos
      exact ⟨a, ha, of_decide_eq_true hp⟩
    · rintro ⟨s, hs, rfl⟩
      have hpos : 0 < cR (runAll N es).inputs :=
        (List.countP_pos_iff).mpr ⟨EState.Rejected, hs, by decide⟩
      simp only [allStatus]
      rw [if_pos hpos]
  · intro r hfr
    have hf0 : (initAll N).HasErrored = false := by
      by_cases h0 : N = 0 <;> simp [initAll, h0]
    have hr0 : aggReason (initAll N).agg = none := by
      by_cases h0 : N = 0
      · subst h0
        decide
      · simp [initAll, h0, aggReason]
    have hx := reason_foldl_all es (initAll N) (initAll_inv N) hf0 hr0
    show aggReason ((es.foldl stepAll (initAll N)).agg) = some r
    rw [hx, hfr]
  · intro hnp es2
    rw [hstatus] at hnp
    by_cases h1 : 0 < cR (runAll N es).inputs
    · exact foldl_frozen_all es2 _ (runAll_inv N es) (hflag.mpr h1)
    · have hcfl : cF (runAll N es).inputs = (runAll N es).inputs.length := by
        by_contra hne
        simp only [allStatus] at hnp
        rw [if_neg h1, if_neg hne] at hnp
        exact hnp rfl
      rw [foldl_done_all es2 _ (runAll_inv N es) hcfl]

/-- C4 witness: over two inputs, rejecting input 0 with a reason and then
fulfilling input 1 leaves the aggregate Rejected with that first reason; the
empty combinator is immediately Fulfilled. -/
theorem futureAll_spec_witness :
    aggStatus (runAll 2 [CEvent.rejectI 0 reasonA, CEvent.fulfillI 1]).agg
        = EState.Rejected ∧
    aggReason (runAll 2 [CEvent.rejectI 0 reasonA, CEvent.fulfillI 1]).agg
        = some reasonA ∧
    aggStatus (initAll 0).agg = EState.Fulfilled := by
  have h := futureAll_spec 2 [CEvent.rejectI 0 reasonA, CEvent.fulfillI 1]
  refine ⟨?_, ?_, ?_⟩
  · exact (h.2.2.1).mpr ⟨EState.Rejected, by decide, rfl⟩
  · exact h.2.2.2.1 reasonA (by decide)
  · have h0 := (futureAll_spec 0 []).1
    simpa using h0

/-- One input resolution preserves the `FutureAny` world invariant. -/
theorem stepAny_inv {N : Nat} {w : AnyWorld} (e : CEvent) (h : InvAny N w) :
    InvAny N (stepAny w e) := by
  obtain ⟨hlen, hkey, hflag, hagg⟩ := h
  cases e with
  | fulfillI i =>
    cases hg : w.inputs[i]? with
    | none =>
      simp only [stepAny, hg]
      exact ⟨hlen, hkey, hflag, hagg⟩
    | some s =>
      cases s with
      | Fulfilled =>
        simp only [stepAny, hg]
        exact ⟨hlen, hkey, hflag, hagg⟩
      | Rejected =>
        simp only [stepAny, hg]
        exact ⟨hlen, hkey, hflag, hagg⟩
      | Pending =>
        have hcf := cF_set_fulfilled hg
        have hcr := cR_set_fulfilled hg
        have hlen2 := List.length_set w.inputs i EState.Fulfilled
        have hlts := pending_counts hg
        have hlenpos : 0 < w.inputs.length := by omega
        have hnil : ¬ (w.inputs = []) := by
          intro hx
          rw [hx] at hlenpos
          simp at hlenpos
        have hnil2 : ¬ (w.inputs.set i EState.Fulfilled = []) := by
          intro hx
          have := List.length_set w.inputs i EState.Fulfilled
          rw [hx] at this
          simp at this
          omega
        simp only [stepAny, hg]
        by_cases hfl : w.HasCompleted = false
        · rw [if_pos hfl]
          have hcf0 : cF w.inputs = 0 := by
            rcases Nat.eq_zero_or_pos (cF w.inputs) with h0 | hpos
            · exact h0
            · exact absurd (hflag.mpr hpos) (by simp [hfl])
          have hstat : anyStatus w.inputs = EState.Pending := by
            simp only [anyStatus]
            rw [if_neg (by push_neg; exact ⟨by omega, hnil⟩), if_neg (by omega)]
          have hstat2 : anyStatus (w.inputs.set i EState.Fulfilled) = EState.Fulfilled := by
            simp only [anyStatus]
            rw [if_pos (Or.inl (by omega))]
          refine ⟨?_, ?_, ?_, ?_⟩
          · show (w.inputs.set i EState.Fulfilled).length = N
            rw [hlen2]; exact hlen
          · show w.Key = ((w.inputs.set i EState.Fulfilled).length : Int)
              - (cR (w.inputs.set i EState.Fulfilled) : Int)
            rw [hcr, hlen2]; omega
          · show true = true ↔ 0 < cF (w.inputs.set i EState.Fulfilled)
            rw [hcf]
            exact ⟨fun _ => by omega, fun _ => rfl⟩
          · show (VFulfill w.agg).1 = _
            rw [hagg, hstat]
            simp only [if_neg (by decide : ¬ (EState.Pending = EState.Rejected))]
            rw [VFulfill_one, hstat2]
            simp only [if_neg (by decide : ¬ (EState.Fulfilled = EState.Rejected))]
        · rw [if_neg hfl]
          have hfl2 : w.HasCompleted = true := by
            revert hfl; cases w.HasCompleted <;> simp
          have hpos : 0 < cF w.inputs := hflag.mp hfl2
          have hstat3 : anyStatus (w.inputs.set i EState.Fulfilled) = anyStatus w.inputs := by
            simp only [anyStatus, hcf, hcr, hlen2]
            rw [if_pos (Or.inl (by omega)), if_pos (Or.inl hpos)]
          refine ⟨?_, ?_, ?_, ?_⟩
          · show (w.inputs.set i EState.Fulfilled).length = N
            rw [hlen2]; exact hlen
          · show w.Key = ((w.inputs.set i EState.Fulfilled).length : Int)
              - (cR (w.inputs.set i EState.Fulfilled) : Int)
            rw [hcr, hlen2]; omega
          · show w.HasCompleted = true ↔ 0 < cF (w.inputs.set i EState.Fulfilled)
            rw [hcf]
            exact ⟨fun _ => by omega, fun _ => hfl2⟩
          · show w.agg = _
            rw [hstat3]; exact hagg
  | rejectI i r =>
    cases hg : w.inputs[i]? with
    | none =>
      simp only [stepAny, hg]
      exact ⟨hlen, hkey, hflag, hagg⟩
    | some s =>
      cases s with
      | Fulfilled =>
        simp only [stepAny, hg]
        exact ⟨hlen, hkey, hflag, hagg⟩
      | Rejected =>
        simp only [stepAny, hg]
        exact ⟨hlen, hkey, hflag, hagg⟩
      | Pending =>
        have hcf := cF_set_rejected hg
        have hcr := cR_set_rejected hg
        have hlen2 := List.length_set w.inputs i EState.Rejected
        have hlts := pending_counts hg
        have hlenpos : 0 < w.inputs.length := by omega
        have hnil : ¬ (w.inputs = []) := by
          intro hx
          rw [hx] at hlenpos
          simp at hlenpos
        have hnil2 : ¬ (w.inputs.set i EState.Rejected = []) := by
          intro hx
          have := List.length_set w.inputs i EState.Rejected
          rw [hx] at this
          simp at this
          omega
        simp only [stepAny, hg]
        by_cases hk : w.Key - 1 = 0
        · rw [if_pos hk]
          have hcf0 : cF w.inputs = 0 := by
            have hle := cF_add_cR_le (w.inputs.set i EState.Rejected)
            rw [hcf, hcr, hlen2] at hle
            omega
          have hstat : anyStatus w.inputs = EState.Pending := by
            simp only [anyStatus]
            rw [if_neg (by push_neg; exact ⟨by omega, hnil⟩), if_neg (by omega)]
          have hcond1 : ¬ (0 < cF (w.inputs.set i EState.Rejected)
              ∨ w.inputs.set i EState.Rejected = []) := by
            push_neg
            exact ⟨by omega, hnil2⟩
          have hcond2 : cR (w.inputs.set i EState.Rejected)
              = (w.inputs.set i EState.Rejected).length := by
            rw [hcr, hlen2]
            omega
          have hstat2 : anyStatus (w.inputs.set i EState.Rejected) = EState.Rejected := by
            simp only [anyStatus]
            rw [if_neg hcond1, if_pos hcond2]
          refine ⟨?_, ?_, ?_, ?_⟩
          · show (w.inputs.set i EState.Rejected).length = N
            rw [hlen2]; exact hlen
          · show w.Key - 1 = ((w.inputs.set i EState.Rejected).length : Int)
              - (cR (w.inputs.set i EState.Rejected) : Int)
            rw [hcr, hlen2]; omega
          · show w.HasCompleted = true ↔ 0 < cF (w.inputs.set i EState.Rejected)
            rw [hcf]
            constructor
            · intro hx
              exact absurd (hflag.mp hx) (by omega)
            · intro hx
              exact absurd hx (by omega)
          · show (VThrow allRejectedMsg w.agg).1 = _
            rw [hagg, hstat]
            simp only [if_neg (by decide : ¬ (EState.Pending = EState.Rejected))]
            rw [VThrow_one, hstat2]
            simp
        · rw [if_neg hk]
          have hcrne : ¬ (cR w.inputs + 1 = w.inputs.length) := by omega
          have hstat3 : anyStatus (w.inputs.set i EState.Rejected) = anyStatus w.inputs := by
            simp only [anyStatus, hcf, hcr, hlen2]
            by_cases hcp : 0 < cF w.inputs
            · rw [if_pos (Or.inl hcp), if_pos (Or.inl hcp)]
            · have hc1 : ¬ (0 < cF w.inputs ∨ w.inputs.set i EState.Rejected = []) := by
                push_neg
                exact ⟨by omega, hnil2⟩
              have hc2 : ¬ (0 < cF w.inputs ∨ w.inputs = []) := by
                push_neg
                exact ⟨by omega, hnil⟩
              have hc4 : ¬ (cR w.inputs = w.inputs.length) := by omega
              rw [if_neg hc1, if_neg hc2, if_neg hcrne, if_neg hc4]
          refine ⟨?_, ?_, ?_, ?_⟩
          · show (w.inputs.set i EState.Rejected).length = N
            rw [hlen2]; exact hlen
          · show w.Key - 1 = ((w.inputs.set i EState.Rejected).length : Int)
              - (cR (w.inputs.set i EState.Rejected) : Int)
            rw [hcr, hlen2]; omega
          · show w.HasCompleted = true ↔ 0 < cF (w.inputs.set i EState.Rejected)
            rw [hcf]; exact hflag
          · show w.agg = _
            rw [hstat3]; exact hagg

/-- The initial `FutureAny` world satisfies the invariant. -/
theorem initAny_inv (N : Nat) : InvAny N (initAny N) := by
  by_cases h0 : N = 0
  · subst h0
    exact ⟨by decide, by decide, by decide, by decide⟩
  · have hrepl : initAny N =
        { inputs := List.replicate N EState.Pending, Key := (N : Int),
          HasCompleted := false, agg := [{}] } := by
      simp [initAny, h0]
    have hcf : cF (List.replicate N EState.Pending) = 0 := by
      simp [cF, List.countP_replicate]
    have hcr : cR (List.replicate N EState.Pending) = 0 := by
      simp [cR, List.countP_replicate]
    have hnil : ¬ (List.replicate N EState.Pending = []) := by
      intro hx
      have := List.length_replicate N EState.Pending
      rw [hx] at this
      simp at this
      omega
    have hstat : anyStatus (List.replicate N EState.Pending) = EState.Pending := by
      simp only [anyStatus]
      rw [if_neg (by push_neg; exact ⟨by omega, hnil⟩),
        if_neg (by rw [hcr, List.length_replicate]; omega)]
    rw [hrepl]
    refine ⟨List.length_replicate N EState.Pending, ?_, ?_, ?_⟩
    · show (N : Int) = ((List.replicate N EState.Pending).length : Int)
        - (cR (List.replicate N EState.Pending) : Int)
      rw [hcr, List.length_replicate]
      omega
    · show false = true ↔ 0 < cF (List.replicate N EState.Pending)
      rw [hcf]
      simp
    · show [({} : VCell)] = _
      rw [hstat]
      simp only [if_neg (by decide : ¬ (EState.Pending = EState.Rejected))]

/-- Every reachable `FutureAny` world satisfies the invariant. -/
theorem foldl_stepAny_inv {N : Nat} (es : List CEvent) :
    ∀ w : AnyWorld, InvAny N w → InvAny N (es.foldl stepAny w) := by
  induction es with
  | nil => intro w h; exact h
  | cons e es ih => intro w h; exact ih _ (stepAny_inv e h)

/-- The world reached by `runAny` satisfies the invariant. -/
theorem runAny_inv (N : Nat) (es : List CEvent) : InvAny N (runAny N es) :=
  foldl_stepAny_inv es _ (initAny_inv N)

/-- Once `HasCompleted` is set, a single further event neither touches the
aggregate nor clears the flag. -/
theorem stepAny_frozen {N : Nat} {w : AnyWorld} (e : CEvent) (h : InvAny N w)
    (hf : w.HasCompleted = true) :
    (stepAny w e).agg = w.agg ∧ (stepAny w e).HasCompleted = true := by
  obtain ⟨hlen, hkey, hflag, hagg⟩ := h
  have hpos : 0 < cF w.inputs := hflag.mp hf
  cases e with
  | fulfillI i =>
    cases hg : w.inputs[i]? with
    | none => simp [stepAny, hg, hf]
    | some s =>
      cases s with
      | Fulfilled => simp [stepAny, hg, hf]
      | Rejected => simp [stepAny, hg, hf]
      | Pending =>
        have hfneg : ¬ (w.HasCompleted = false) := by simp [hf]
        simp only [stepAny, hg]
        rw [if_neg hfneg]
        exact ⟨rfl, hf⟩
  | rejectI i r =>
    cases hg : w.inputs[i]? with
    | none => simp [stepAny, hg, hf]
    | some s =>
      cases s with
      | Fulfilled => simp [stepAny, hg, hf]
      | Rejected => simp [stepAny, hg, hf]
      | Pending =>
        have hcf := cF_set_rejected hg
        have hcr := cR_set_rejected hg
        have hlen2 := List.length_set w.inputs i EState.Rejected
        have hle := cF_add_cR_le (w.inputs.set i EState.Rejected)
        rw [hcf, hcr, hlen2] at hle
        have hk : ¬ (w.Key - 1 = 0) := by omega
        simp only [stepAny, hg]
        rw [if_neg hk]
        exact ⟨rfl, hf⟩

/-- Once `HasCompleted` is set, no sequence of further events touches the
aggregate. -/
theorem foldl_frozen_any {N : Nat} (es : List CEvent) :
    ∀ w : AnyWorld, InvAny N w → w.HasCompleted = true →
      (es.foldl stepAny w).agg = w.agg := by
  induction es with
  | nil => intro w _ _; rfl
  | cons e es ih =>
    intro w h hf
    have hstep := stepAny_frozen e h hf
    rw [List.foldl_cons, ih _ (stepAny_inv e h) hstep.2, hstep.1]

/-- After every input rejected (or with no inputs at all), any further event
is a no-op. -/
theorem stepAny_done {N : Nat} {w : AnyWorld} (e : CEvent) (h : InvAny N w)
    (hall : cR w.inputs = w.inputs.length) : stepAny w e = w := by
  have hnp : ∀ i : Nat, ¬ (w.inputs[i]? = some EState.Pending) := by
    intro i hg
    have := (pending_counts hg).2
    omega
  cases e with
  | fulfillI i =>
    cases hg : w.inputs[i]? with
    | none => simp [stepAny, hg]
    | some s =>
      cases s with
      | Pending => exact absurd hg (hnp i)
      | Fulfilled => simp [stepAny, hg]
      | Rejected => simp [stepAny, hg]
  | rejectI i r =>
    cases hg : w.inputs[i]? with
    | none => simp [stepAny, hg]
    | some s =>
      cases s with
      | Pending => exact absurd hg (hnp i)
      | Fulfilled => simp [stepAny, hg]
      | Rejected => simp [stepAny, hg]

/-- After every input rejected, any sequence of further events is a no-op. -/
theorem foldl_done_any {N : Nat} (es : List CEvent) :
    ∀ w : AnyWorld, InvAny N w → cR w.inputs = w.inputs.length →
      es.foldl stepAny w = w := by
  induction es with
  | nil => intro w _ _; rfl
  | cons e es ih =>
    intro w h hall
    rw [List.foldl_cons, stepAny_done e h hall]
    exact ih w h hall

/-- C5.  `FutureAny` over an empty input array returns an immediately
Fulfilled aggregate, and Pending otherwise; after any event sequence the
aggregate is Fulfilled exactly when some input fulfilled (or there were no
inputs), Rejected exactly when there was at least one input and every input
rejected (so only upon the last rejection), in which case it carries the
synthetic aggregate reason; and once it is resolved no further input
resolution changes it. -/
theorem futureAny_spec (N : Nat) (es : List CEvent) :
    aggStatus (initAny N).agg = (if N = 0 then EState.Fulfilled else EState.Pending) ∧
    (aggStatus (runAny N es).agg = EState.Fulfilled ↔
      (N = 0 ∨ ∃ s ∈ (runAny N es).inputs, s = EState.Fulfilled)) ∧
    (aggStatus (runAny N es).agg = EState.Rejected ↔
      (0 < N ∧ ∀ s ∈ (runAny N es).inputs, s = EState.Rejected)) ∧
    (aggStatus (runAny N es).agg = EState.Rejected →
      aggReason (runAny N es).agg = some allRejectedMsg) ∧
    (¬ aggStatus (runAny N es).agg = EState.Pending →
      ∀ es2 : List CEvent, (es2.foldl stepAny (runAny N es)).agg = (runAny N es).agg) := by
  obtain ⟨hlen, hkey, hflag, hagg⟩ := runAny_inv N es
  have hstatus : aggStatus (runAny N es).agg = anyStatus (runAny N es).inputs := by
    rw [hagg]
    rfl
  refine ⟨?_, ?_, ?_, ?_, ?_⟩
  · by_cases h0 : N = 0
    · subst h0
      rw [if_pos rfl]
      decide
    · rw [if_neg h0]
      simp [initAny, h0, aggStatus]
  · rw [hstatus]
    constructor
    · intro hF
      by_cases hcp : 0 < cF (runAny N es).inputs
      · obtain ⟨a, ha, hp⟩ := (List.countP_pos_iff).mp hcp
        exact Or.inr ⟨a, ha, of_decide_eq_true hp⟩
      · by_cases hnil : (runAny N es).inputs = []
        · left
          rw [← hlen, hnil]
          rfl
        · exfalso
          simp only [anyStatus] at hF
          rw [if_neg (by push_neg; exact ⟨by omega, hnil⟩)] at hF
          by_cases h2 : cR (runAny N es).inputs = (runAny N es).inputs.length
          · rw [if_pos h2] at hF
            exact absurd hF (by decide)
          · rw [if_neg h2] at hF
            exact absurd hF (by decide)
    · intro hor
      simp only [anyStatus]
      rcases hor with h0 | ⟨s, hs, rfl⟩
      · have hnil : (runAny N es).inputs = [] := by
          have hl0 : (runAny N es).inputs.length = 0 := by omega
          exact List.eq_nil_of_length_eq_zero hl0
        rw [if_pos (Or.inr hnil)]
      · have hpos : 0 < cF (runAny N es).inputs :=
          (List.countP_pos_iff).mpr ⟨EState.Fulfilled, hs, by decide⟩
        rw [if_pos (Or.inl hpos)]
  · rw [hstatus]
    constructor
    · intro hR
      have hns : ¬ (0 < cF (runAny N es).inputs ∨ (runAny N es).inputs = []) := by
        intro hor
        simp only [anyStatus] at hR
        rw [if_pos hor] at hR
        exact absurd hR (by decide)
      push_neg at hns
      have hcrl : cR (runAny N es).inputs = (runAny N es).inputs.length := by
        by_contra h2
        simp only [anyStatus] at hR
        rw [if_neg (by push_neg; exact ⟨hns.1, hns.2⟩), if_neg h2] at hR
        exact absurd hR (by decide)
      constructor
      · have : 0 < (runAny N es).inputs.length := by
          cases hx : (runAny N es).inputs with
          | nil => exact absurd hx hns.2
          | cons a l => simp
        omega
      · intro s hs
        exact of_decide_eq_true ((List.countP_eq_length).mp hcrl s hs)
    · rintro ⟨hN, hall⟩
      have hcrl : cR (runAny N es).inputs = (runAny N es).inputs.length :=
        (List.countP_eq_length).mpr (fun a ha => by simp [hall a ha])
      have hnil : ¬ ((runAny N es).inputs = []) := by
        intro hx
        rw [hx] at hlen
        simp at hlen
        omega
      have hncf : ¬ (0 < cF (runAny N es).inputs) := by
        intro hpos
        obtain ⟨a, ha, hp⟩ := (List.countP_pos_iff).mp hpos
        have h1 := hall a ha
        rw [h1] at hp
        exact absurd hp (by decide)
      simp only [anyStatus]
      rw [if_neg (by push_neg; exact ⟨by omega, hnil⟩), if_pos hcrl]
  · intro hR
    rw [hstatus] at hR
    rw [hagg]
    show (if anyStatus (runAny N es).inputs = EState.Rejected
      then some allRejectedMsg else none) = some allRejectedMsg
    rw [if_pos hR]
  · intro hnp es2
    rw [hstatus] at hnp
    by_cases hcp : 0 < cF (runAny N es).inputs
    · exact foldl_frozen_any es2 _ (runAny_inv N es) (hflag.mpr hcp)
    · by_cases hnil : (runAny N es).inputs = []
      · have hcrl : cR (runAny N es).inputs = (runAny N es).inputs.length := by
          rw [hnil]
          rfl
        rw [foldl_done_any es2 _ (runAny_inv N es) hcrl]
      · have hcrl : cR (runAny N es).inputs = (runAny N es).inputs.length := by
          by_contra h2
          simp only [anyStatus] at hnp
          rw [if_neg (by push_neg; exact ⟨by omega, hnil⟩), if_neg h2] at hnp
          exact hnp rfl
        rw [foldl_done_any es2 _ (runAny_inv N es) hcrl]

/-- C5 witness: over two inputs, one fulfillment resolves the aggregate
Fulfilled immediately; rejecting both inputs resolves it Rejected with the
synthetic reason only after the second rejection; the empty combinator is
immediately Fulfilled. -/
theorem futureAny_spec_witness :
    aggStatus (runAny 2 [CEvent.fulfillI 1, CEvent.rejectI 0 reasonA]).agg
        = EState.Fulfilled ∧
    aggStatus (runAny 2 [CEvent.rejectI 0 reasonA]).agg = EState.Pending ∧
    aggStatus (runAny 2 [CEvent.rejectI 0 reasonA, CEvent.rejectI 1 reasonB]).agg
        = EState.Rejected ∧
    aggReason (runAny 2 [CEvent.rejectI 0 reasonA, CEvent.rejectI 1 reasonB]).agg
        = some allRejectedMsg ∧
    aggStatus (initAny 0).agg = EState.Fulfilled := by
  have h2 := futureAny_spec 2 [CEvent.rejectI 0 reasonA, CEvent.rejectI 1 reasonB]
  have hrej : aggStatus (runAny 2 [CEvent.rejectI 0 reasonA, CEvent.rejectI 1 reasonB]).agg
      = EState.Rejected :=
    (h2.2.2.1).mpr ⟨by omega, by decide⟩
  refine ⟨?_, ?_, hrej, h2.2.2.2.1 hrej, ?_⟩
  · exact ((futureAny_spec 2 [CEvent.fulfillI 1, CEvent.rejectI 0 reasonA]).2.1).mpr
      (Or.inr ⟨EState.Fulfilled, by decide, rfl⟩)
  · have hx := (futureAny_spec 2 [CEvent.rejectI 0 reasonA]).2.1
    have hy := (futureAny_spec 2 [CEvent.rejectI 0 reasonA]).2.2.1
    cases hst : aggStatus (runAny 2 [CEvent.rejectI 0 reasonA]).agg with
    | Pending => rfl
    | Fulfilled =>
      rcases hx.mp hst with h0 | ⟨s, hs, hsf⟩
      · exact absurd h0 (by omega)
      · revert hs
        rw [hsf]
        decide
    | Rejected =>
      have := (hy.mp hst).2 EState.Pending (by decide)
      exact absurd this (by decide)
  · have h0 := (futureAny_spec 0 []).1
    simpa using h0

end OGAsync
